import Mathlib

/-!
Verification development for the pdf-cutter repository.

Python strings are modelled as `List Char`, Python integers as `Nat`
(all page numbers in the program are non-negative), Python `None` as
`Option.none`, and the fallible parser as `Except`.  Each definition
below is a direct translation of the correspondingly named Python
function; comments record the source location.
-/

namespace PdfCutter

/-! ### Generic character/list helpers (models of Python `str` primitives) -/

/-- Model of Python `str.strip()`: drop whitespace from both ends. -/
def trimChars (cs : List Char) : List Char :=
  ((cs.dropWhile Char.isWhitespace).reverse.dropWhile Char.isWhitespace).reverse

/-- Model of Python `str.split(chr(10))`: split on newline characters,
keeping empty segments. -/
def splitLines : List Char → List (List Char)
  | [] => [[]]
  | c :: rest =>
    if c = '\n' then [] :: splitLines rest
    else
      match splitLines rest with
      | [] => [[c]]
      | l :: ls => (c :: l) :: ls

/-- The decimal digit character for `d` (meaningful for `d < 10`). -/
def digitChar (d : Nat) : Char := Char.ofNat (48 + d)

/-- Fuelled decimal printer; `fuel` bounds the number of digits produced. -/
def natCharsAux : Nat → Nat → List Char
  | 0, _ => []
  | fuel + 1, n =>
    if n < 10 then [digitChar n]
    else natCharsAux fuel (n / 10) ++ [digitChar (n % 10)]

/-- Model of Python `str(n)` for a natural number: decimal digits. -/
def natChars (n : Nat) : List Char := natCharsAux (n + 1) n

/-- Model of Python `int(s)` on a digit string: decimal value. -/
def digitsToNat (cs : List Char) : Nat :=
  cs.foldl (fun a c => 10 * a + (c.toNat - 48)) 0

/-- Join lines with newline separators (inverse of `splitLines` on
newline-free lines). -/
def joinLines : List (List Char) → List Char
  | [] => []
  | [l] => l
  | l :: ls => l ++ '\n' :: joinLines ls

/-! ### Data model: outline chapter trees

`Chapter` is a node of the nested outline before end-page resolution
(`title`, `start_page`, `children`), as built by `get_nested_outline`
in `src/pdf_processor.py`.  `RChapter` additionally carries the
resolved `end_page`. -/

inductive Chapter where
  | mk : List Char → Nat → List Chapter → Chapter

def Chapter.title : Chapter → List Char
  | .mk t _ _ => t

def Chapter.start_page : Chapter → Nat
  | .mk _ s _ => s

def Chapter.children : Chapter → List Chapter
  | .mk _ _ cs => cs

inductive RChapter where
  | mk : List Char → Nat → Nat → List RChapter → RChapter

def RChapter.title : RChapter → List Char
  | .mk t _ _ _ => t

def RChapter.start_page : RChapter → Nat
  | .mk _ s _ _ => s

def RChapter.end_page : RChapter → Nat
  | .mk _ _ e _ => e

def RChapter.children : RChapter → List RChapter
  | .mk _ _ _ cs => cs

/-- All `start_page` fields of a forest in preorder (document order). -/
def startsList : List Chapter → List Nat
  | [] => []
  | Chapter.mk _ s cs :: rest => s :: (startsList cs ++ startsList rest)
termination_by chs => sizeOf chs

/-- Translation of `calculate_end_pages` (src/pdf_processor.py lines
135-160).  The Python function mutates each chapter dict in place; here
it returns the resolved forest.  `next` models the `next_start` keyword
argument (default `None`); the Python guard `if current_next_start:` is
truthiness, hence the explicit `k = 0` test; the Python guard
`if chapter['children']:` before the recursive call is dropped because
recursing into an empty list returns an empty list.
The effective next start for the head of a sibling list: the next
sibling's `start_page` if there is one, else the caller-supplied
`next_start` (src/pdf_processor.py lines 143-146).
`calculate_end_pages` below is the resolver itself. -/
def nextStartOf (rest : List Chapter) (next : Option Nat) : Option Nat :=
  match rest with
  | Chapter.mk _ s2 _ :: _ => some s2
  | [] => next

/-- The end page computed for a node with start page `s`
(src/pdf_processor.py lines 148-154).  The Python guard
`if current_next_start:` is truthiness, hence the explicit `k = 0`
test. -/
def resolveEnd (total_pages s : Nat) : Option Nat → Nat
  | some k => if k = 0 then total_pages else if s < k then k - 1 else s
  | none => total_pages

def calculate_end_pages : List Chapter → Nat → Option Nat → List RChapter
  | [], _, _ => []
  | Chapter.mk t s cs :: rest, total_pages, next =>
    RChapter.mk t s (resolveEnd total_pages s (nextStartOf rest next))
        (calculate_end_pages cs (resolveEnd total_pages s (nextStartOf rest next))
          (nextStartOf rest next)) ::
      calculate_end_pages rest total_pages next
termination_by chs => sizeOf chs

/-- The boundary-resolution algorithm exactly as the specification words
it (claim C1): the effective next start is sibling `i+1`'s start page
when one exists, else the caller-supplied `next`; a *known* next start
greater than the node's start gives `end = next - 1`, a known one at or
below the start gives `end = start`, an unknown one gives
`end = total`; children are resolved with the node's end as their total
and the same effective next start.
The end page as the specification words it: a known next start
greater than `s` gives `next - 1`, a known one at or below `s` gives
`s`, an unknown one gives the total-pages context.
`specCalculateEndPages` below is the resolver following those words. -/
def specResolveEnd (total_pages s : Nat) : Option Nat → Nat
  | some k => if s < k then k - 1 else s
  | none => total_pages

def specCalculateEndPages : List Chapter → Nat → Option Nat → List RChapter
  | [], _, _ => []
  | Chapter.mk t s cs :: rest, total_pages, next =>
    RChapter.mk t s (specResolveEnd total_pages s (nextStartOf rest next))
        (specCalculateEndPages cs (specResolveEnd total_pages s (nextStartOf rest next))
          (nextStartOf rest next)) ::
      specCalculateEndPages rest total_pages next
termination_by chs => sizeOf chs

/-- `end_page ≥ start_page` holds at every node of the forest. -/
def endsGeStarts : List RChapter → Bool
  | [] => true
  | RChapter.mk _ s e cs :: rest => (s ≤ e) && endsGeStarts cs && endsGeStarts rest
termination_by chs => sizeOf chs

/-- Parent/child boundary invariant of claim C6 at every node of the
forest: every child's `end_page` is at most its parent's, and the last
child's `end_page` equals the parent's.
`lastEndIs` checks the last element of a resolved forest, if any, for
end page `e`. -/
def lastEndIs (cs : List RChapter) (e : Nat) : Bool :=
  match cs.getLast? with
  | none => true
  | some l => l.end_page = e

def childEndsBounded : List RChapter → Bool
  | [] => true
  | RChapter.mk _ _ e cs :: rest =>
    childEndsBounded cs &&
    cs.all (fun c => c.end_page ≤ e) &&
    lastEndIs cs e &&
    childEndsBounded rest
termination_by chs => sizeOf chs

/-! ### Selection collection (src/terminal_ui.py, `PDFSplitterApp.collect_chapters`)

`UNode` models a populated UI tree node: the `data` dict fields
(`title`, `start_page`, `end_page`, `checked`) plus the node's
`is_expanded` state and its child nodes. -/

inductive UNode where
  | mk : List Char → Nat → Nat → Bool → Bool → List UNode → UNode

def UNode.title : UNode → List Char
  | .mk t _ _ _ _ _ => t

def UNode.start_page : UNode → Nat
  | .mk _ s _ _ _ _ => s

def UNode.end_page : UNode → Nat
  | .mk _ _ e _ _ _ => e

def UNode.checked : UNode → Bool
  | .mk _ _ _ c _ _ => c

def UNode.expanded : UNode → Bool
  | .mk _ _ _ _ x _ => x

def UNode.children : UNode → List UNode
  | .mk _ _ _ _ _ cs => cs

/-- Translation of `PDFSplitterApp.collect_chapters` (src/terminal_ui.py
lines 126-143), applied to a node's list of children.  Every populated
node carries data, so the `not data` guard reduces to the `checked`
test; the Python `if child_chapters:` guard before `extend` is kept
verbatim. -/
def collect_chapters : List UNode → List (List Char × Nat × Nat)
  | [] => []
  | UNode.mk t s e chk exp cs :: rest =>
    if !chk then collect_chapters rest
    else if !exp then (t, s, e) :: collect_chapters rest
    else
      (let child_chapters := collect_chapters cs
       if child_chapters = [] then [] else child_chapters) ++ collect_chapters rest
termination_by chs => sizeOf chs

/-! ### Manual range parsing (src/terminal_ui.py, `ManualRangeApp.parse_ranges`) -/

/-- A flat chapter entry as produced by the manual range parser: the
dict `{title, start_page, end_page}`. -/
structure MChapter where
  title : List Char
  start_page : Nat
  end_page : Nat
deriving DecidableEq, Repr

/-- Model of the anchored regular expression
`(digits) ws* - ws* (digits) ( ws* : ws* (title) )?` used by
`parse_ranges` (src/terminal_ui.py line 260) via maximal-munch
scanning.  The function is only ever applied to stripped lines, on
which maximal munch coincides with the regex's backtracking search.
Returns the two numbers and the optional raw title group. -/
def expectChar (c : Char) : List Char → Option (List Char)
  | x :: rest => if x = c then some rest else none
  | [] => none

def parseLine (cs : List Char) : Option (Nat × Nat × Option (List Char)) :=
  let ds1 := cs.takeWhile Char.isDigit
  let r1 := cs.dropWhile Char.isDigit
  if ds1 = [] then none
  else
    (expectChar '-' (r1.dropWhile Char.isWhitespace)).bind fun r3 =>
      let r4 := r3.dropWhile Char.isWhitespace
      let ds2 := r4.takeWhile Char.isDigit
      let r5 := r4.dropWhile Char.isDigit
      if ds2 = [] then none
      else if r5 = [] then some (digitsToNat ds1, digitsToNat ds2, none)
      else
        (expectChar ':' (r5.dropWhile Char.isWhitespace)).bind fun r7 =>
          let r8 := r7.dropWhile Char.isWhitespace
          if r8 = [] then none
          else some (digitsToNat ds1, digitsToNat ds2, some r8)

/-- The ASCII apostrophe, kept out of string literals. -/
def squote : Char := Char.ofNat 39

/-- Message of src/terminal_ui.py line 262. -/
def msgInvalidFormat (i : Nat) (line : List Char) : List Char :=
  "Line ".data ++ natChars i ++ ": Invalid format ".data ++
    squote :: line ++ squote :: ". Use ".data ++
    squote :: "start-end".data ++ squote :: " or ".data ++
    squote :: "start-end:title".data ++ [squote]

/-- Message of src/terminal_ui.py line 270. -/
def msgStartLow (i : Nat) : List Char :=
  "Line ".data ++ natChars i ++ ": Start page must be at least 1".data

/-- Message of src/terminal_ui.py line 272. -/
def msgEndHigh (i e total : Nat) : List Char :=
  "Line ".data ++ natChars i ++ ": End page ".data ++ natChars e ++
    " exceeds total pages (".data ++ natChars total ++ ")".data

/-- Message of src/terminal_ui.py line 274. -/
def msgOrder (i s e : Nat) : List Char :=
  "Line ".data ++ natChars i ++ ": Start page ".data ++ natChars s ++
    " cannot be greater than end page ".data ++ natChars e

/-- The default title `f"Part {i}"` of src/terminal_ui.py line 266. -/
def defaultTitle (i : Nat) : List Char := "Part ".data ++ natChars i

/-- The non-blank stripped lines of the submitted text
(src/terminal_ui.py line 256). -/
def nonBlankLines (text : List Char) : List (List Char) :=
  ((splitLines (trimChars text)).map trimChars).filter (fun l => l ≠ [])

/-- The loop body of `parse_ranges` (src/terminal_ui.py lines 258-282)
over the numbered non-blank lines, starting at line number `i`.
`Except.error` models the Python `(None, message)` return,
`Except.ok` the final `(chapters, None)`. -/
def parseRangesAux (total_pages : Nat) : Nat → List (List Char) →
    Except (List Char) (List MChapter)
  | _, [] => .ok []
  | i, line :: rest =>
    match parseLine line with
    | none => .error (msgInvalidFormat i line)
    | some (s, e, t) =>
      if s < 1 then .error (msgStartLow i)
      else if total_pages < e then .error (msgEndHigh i e total_pages)
      else if e < s then .error (msgOrder i s e)
      else
        match parseRangesAux total_pages (i + 1) rest with
        | .error m => .error m
        | .ok chs =>
          .ok (⟨trimChars (t.getD (defaultTitle i)), s, e⟩ :: chs)

/-- Translation of `ManualRangeApp.parse_ranges` (src/terminal_ui.py
lines 250-282). -/
def parse_ranges (total_pages : Nat) (text : List Char) :
    Except (List Char) (List MChapter) :=
  parseRangesAux total_pages 1 (nonBlankLines text)

/-- The validation applied to one numbered line, in the source's order:
grammar, then `start < 1`, then `end > total`, then `start > end`;
`none` means the line passes. -/
def lineCheck (total_pages i : Nat) (line : List Char) : Option (List Char) :=
  match parseLine line with
  | none => some (msgInvalidFormat i line)
  | some (s, e, _) =>
    if s < 1 then some (msgStartLow i)
    else if total_pages < e then some (msgEndHigh i e total_pages)
    else if e < s then some (msgOrder i s e)
    else none

/-- Serialization of one chapter back to a `start-end:title` line
(claim C9's round-trip form). -/
def serializeChapter (ch : MChapter) : List Char :=
  natChars ch.start_page ++ '-' :: (natChars ch.end_page ++ ':' :: ch.title)

/-- Serialization of a chapter list, one line per chapter. -/
def serializeChapters (chs : List MChapter) : List Char :=
  joinLines (chs.map serializeChapter)

/-! ### Extraction planning (src/pdf_processor.py, `extract_chapters`) -/

/-- The title sanitization of src/pdf_processor.py line 81: keep
alphanumerics, spaces, hyphens and underscores, then strip. -/
def safeTitle (title : List Char) : List Char :=
  trimChars (title.filter
    (fun c => c.isAlpha || c.isDigit || c = ' ' || c = '-' || c = '_'))

/-- The output filename for the chapter at 0-based position `i`
(src/pdf_processor.py lines 81-83 and 104): the sanitized title, or
`chapter_{i+1}` when it sanitizes to nothing, plus the `.pdf` suffix. -/
def outputFilename (i : Nat) (title : List Char) : List Char :=
  (let st := safeTitle title
   if st = [] then "chapter_".data ++ natChars (i + 1) else st) ++ ".pdf".data

/-- One unit of extraction work: the output filename and the 0-based
half-open page interval `[startIdx, endIdx)` copied into it. -/
structure PlanItem where
  filename : List Char
  startIdx : Nat
  endIdx : Nat
deriving DecidableEq, Repr

/-- The loop of `extract_chapters` (src/pdf_processor.py lines 75-110)
restricted to its plan: which chapters are skipped and, for the others,
the filename and the page interval `range(start_idx, min(end_idx,
total_pages))` that is copied.  `i` is the running `enumerate` index.
The skip test `start_idx >= total_pages` is `total_pages ≤ start_page - 1`
in `Nat` arithmetic. -/
def extractPlanAux (total_pages : Nat) : Nat → List MChapter → List PlanItem
  | _, [] => []
  | i, ch :: rest =>
    if total_pages ≤ ch.start_page - 1 then extractPlanAux total_pages (i + 1) rest
    else
      ⟨outputFilename i ch.title, ch.start_page - 1, min ch.end_page total_pages⟩ ::
        extractPlanAux total_pages (i + 1) rest

/-- The extraction plan of `extract_chapters` for a chapter list. -/
def extract_chapters (total_pages : Nat) (chs : List MChapter) : List PlanItem :=
  extractPlanAux total_pages 0 chs

/-! ### Outline flattening and the top-level driver (src/main.py) -/

/-- A raw bookmark entry as `get_nested_outline` sees it: either a
destination item whose page either resolves (`some p`, 0-based) or
raises (`none`), or a nested list of sub-entries. -/
inductive OutlineItem where
  | entry : List Char → Option Nat → OutlineItem
  | sub : List OutlineItem → OutlineItem

/-- Translation of `get_nested_outline` (src/pdf_processor.py lines
112-133).  `acc` is the reversed list of chapters built so far; a
sub-list attaches (as children) to the most recent chapter, if any,
overwriting earlier children; an unresolvable destination is dropped. -/
def gnoAux : List OutlineItem → List Chapter → List Chapter
  | [], acc => acc.reverse
  | OutlineItem.entry _ none :: rest, acc => gnoAux rest acc
  | OutlineItem.entry t (some p) :: rest, acc =>
    gnoAux rest (Chapter.mk t (p + 1) [] :: acc)
  | OutlineItem.sub _ :: rest, [] => gnoAux rest []
  | OutlineItem.sub l :: rest, Chapter.mk t s _ :: acc =>
    gnoAux rest (Chapter.mk t s (gnoAux l []) :: acc)
termination_by items _ => sizeOf items

/-- `get_nested_outline` on a raw outline. -/
def get_nested_outline (outline : List OutlineItem) : List Chapter :=
  gnoAux outline []

/-- The environment `main` (src/main.py lines 8-61) runs in: whether
the file exists, whether `--manual` was passed, the outcome of opening
the document (`none` models any read exception; otherwise the page
count and raw outline), what the manual-range TUI and the outline TUI
sessions return, and whether extraction completes without raising. -/
structure Env where
  fileExists : Bool
  manualFlag : Bool
  readOutcome : Option (Nat × List OutlineItem)
  manualSelection : List MChapter
  tuiSelection : List MChapter
  extractOk : Bool

/-- The chapter selection `main` ends up with for a successfully read
document: manual mode is used when forced, when the raw outline is
empty, or when it flattens to no chapters (src/main.py lines 30-48). -/
def selectedChapters (env : Env) (outline : List OutlineItem) : List MChapter :=
  if env.manualFlag || outline.isEmpty || (get_nested_outline outline).isEmpty
  then env.manualSelection
  else env.tuiSelection

/-- The process exit code of `main` (src/main.py lines 8-61): `1` for a
missing file (line 22) or any exception while reading or extracting
(line 61); `0` when no chapters are selected (line 52) or when
extraction completes and `main` returns normally. -/
def mainExit (env : Env) : Nat :=
  if !env.fileExists then 1
  else
    match env.readOutcome with
    | none => 1
    | some (_, outline) =>
      let selected := selectedChapters env outline
      if selected.isEmpty then 0
      else if env.extractOk then 0 else 1

/-! ### Helper lemmas on characters, trimming and line splitting -/

theorem isDigit_not_isWhitespace {c : Char} (h : c.isDigit = true) :
    c.isWhitespace = false := by
  by_contra hw
  rw [Bool.not_eq_false] at hw
  simp only [Char.isWhitespace, Bool.or_eq_true, decide_eq_true_eq] at hw
  rcases hw with ((h1 | h1) | h1) | h1 <;> subst h1 <;> exact absurd h (by decide)

theorem digitChar_isDigit {d : Nat} (h : d < 10) : (digitChar d).isDigit = true := by
  interval_cases d <;> decide

theorem digitChar_toNat {d : Nat} (h : d < 10) : (digitChar d).toNat = 48 + d := by
  interval_cases d <;> decide

theorem natCharsAux_digits : ∀ fuel n, n < fuel →
    ∀ c ∈ natCharsAux fuel n, c.isDigit = true := by
  intro fuel
  induction fuel with
  | zero => intro n hn; omega
  | succ f ih =>
    intro n hn c hc
    rw [natCharsAux] at hc
    split at hc
    · rcases List.mem_singleton.mp hc with rfl
      exact digitChar_isDigit (by omega)
    · rcases List.mem_append.mp hc with h | h
      · have hdiv : n / 10 < n := Nat.div_lt_self (by omega) (by omega)
        exact ih (n / 10) (by omega) c h
      · rcases List.mem_singleton.mp h with rfl
        exact digitChar_isDigit (Nat.mod_lt _ (by omega))

theorem natChars_digits (n : Nat) : ∀ c ∈ natChars n, c.isDigit = true :=
  natCharsAux_digits (n + 1) n (Nat.lt_succ_self n)

theorem natCharsAux_ne_nil : ∀ fuel n, n < fuel → natCharsAux fuel n ≠ [] := by
  intro fuel
  induction fuel with
  | zero => intro n hn; omega
  | succ f _ =>
    intro n _
    by_cases h : n < 10 <;> simp [natCharsAux, h]

theorem natChars_ne_nil (n : Nat) : natChars n ≠ [] :=
  natCharsAux_ne_nil (n + 1) n (Nat.lt_succ_self n)

theorem digitsToNat_append_singleton (xs : List Char) (c : Char) :
    digitsToNat (xs ++ [c]) = 10 * digitsToNat xs + (c.toNat - 48) := by
  simp [digitsToNat, List.foldl_append]

theorem digitsToNat_natCharsAux : ∀ fuel n, n < fuel →
    digitsToNat (natCharsAux fuel n) = n := by
  intro fuel
  induction fuel with
  | zero => intro n hn; omega
  | succ f ih =>
    intro n hn
    rw [natCharsAux]
    split
    · next h =>
      simp [digitsToNat, digitChar_toNat h]
    · next h =>
      have hdiv : n / 10 < n := Nat.div_lt_self (by omega) (by omega)
      rw [digitsToNat_append_singleton, ih (n / 10) (by omega),
        digitChar_toNat (Nat.mod_lt _ (by omega))]
      omega

theorem digitsToNat_natChars (n : Nat) : digitsToNat (natChars n) = n :=
  digitsToNat_natCharsAux (n + 1) n (Nat.lt_succ_self n)

theorem takeWhile_append_cons {p : Char → Bool} {xs : List Char} {y : Char}
    (ys : List Char) (hxs : ∀ x ∈ xs, p x = true) (hy : p y = false) :
    (xs ++ y :: ys).takeWhile p = xs := by
  induction xs with
  | nil => simp [List.takeWhile_cons, hy]
  | cons a as ih =>
    have ha : p a = true := hxs a (by simp)
    simp only [List.cons_append, List.takeWhile_cons, ha, if_true]
    rw [ih (fun x hx => hxs x (by simp [hx]))]

theorem dropWhile_append_cons {p : Char → Bool} {xs : List Char} {y : Char}
    (ys : List Char) (hxs : ∀ x ∈ xs, p x = true) (hy : p y = false) :
    (xs ++ y :: ys).dropWhile p = y :: ys := by
  induction xs with
  | nil => simp [List.dropWhile_cons, hy]
  | cons a as ih =>
    have ha : p a = true := hxs a (by simp)
    simp only [List.cons_append, List.dropWhile_cons, ha, if_true]
    exact ih (fun x hx => hxs x (by simp [hx]))

theorem dropWhile_eq_self_of_head {p : Char → Bool} {l : List Char}
    (h : ∀ c, l.head? = some c → p c = false) : l.dropWhile p = l := by
  cases l with
  | nil => rfl
  | cons a as => simp [List.dropWhile_cons, h a rfl]

theorem head?_dropWhile {p : Char → Bool} : ∀ {l : List Char} {c : Char},
    (l.dropWhile p).head? = some c → p c = false := by
  intro l
  induction l with
  | nil => intro c h; simp at h
  | cons a as ih =>
    intro c h
    rw [List.dropWhile_cons] at h
    split at h
    · exact ih h
    · next hpa =>
      simp only [List.head?_cons, Option.some.injEq] at h
      subst h
      exact Bool.eq_false_iff.mpr hpa

theorem getLast?_of_suffix {α : Type} {l b : List α} (h : b <:+ l) (hb : b ≠ []) :
    l.getLast? = b.getLast? := by
  obtain ⟨a, rfl⟩ := h
  exact List.getLast?_append_of_ne_nil _ hb

theorem trimChars_subset {l : List Char} : ∀ c ∈ trimChars l, c ∈ l := by
  intro c hc
  simp only [trimChars, List.mem_reverse] at hc
  have h1 := (List.dropWhile_suffix Char.isWhitespace).subset hc
  rw [List.mem_reverse] at h1
  exact (List.dropWhile_suffix Char.isWhitespace).subset h1

theorem trimChars_getLast_not_ws {l : List Char} {c : Char}
    (h : (trimChars l).getLast? = some c) : c.isWhitespace = false := by
  rw [trimChars, List.getLast?_reverse] at h
  exact head?_dropWhile h

theorem trimChars_head_not_ws {l : List Char} {c : Char}
    (h : (trimChars l).head? = some c) : c.isWhitespace = false := by
  rw [trimChars, List.head?_reverse] at h
  have hbne : (l.dropWhile Char.isWhitespace).reverse.dropWhile Char.isWhitespace ≠ [] := by
    intro he
    rw [he] at h
    simp at h
  have h2 : ((l.dropWhile Char.isWhitespace).reverse).getLast? = some c := by
    rw [getLast?_of_suffix (List.dropWhile_suffix Char.isWhitespace) hbne]
    exact h
  rw [List.getLast?_reverse] at h2
  exact head?_dropWhile h2

theorem trimChars_eq_self {l : List Char}
    (h1 : ∀ c, l.head? = some c → c.isWhitespace = false)
    (h2 : ∀ c, l.getLast? = some c → c.isWhitespace = false) :
    trimChars l = l := by
  rw [trimChars, dropWhile_eq_self_of_head h1, dropWhile_eq_self_of_head
    (fun c hc => h2 c (by rwa [List.head?_reverse] at hc)), List.reverse_reverse]

/-! ### Lemmas about line splitting and joining -/

theorem splitLines_ne_nil : ∀ cs : List Char, splitLines cs ≠ [] := by
  intro cs
  induction cs with
  | nil => simp [splitLines]
  | cons c rest ih =>
    rw [splitLines]
    split
    · simp
    · cases hsp : splitLines rest with
      | nil => simp
      | cons a as => simp

theorem splitLines_no_newline : ∀ (cs : List Char), ∀ l ∈ splitLines cs, '\n' ∉ l := by
  intro cs
  induction cs with
  | nil =>
    intro l hl
    rw [splitLines, List.mem_singleton] at hl
    subst hl
    simp
  | cons c rest ih =>
    intro l hl
    rw [splitLines] at hl
    split at hl
    · rcases List.mem_cons.mp hl with rfl | h
      · simp
      · exact ih l h
    · next hc =>
      cases hsp : splitLines rest with
      | nil => exact absurd hsp (splitLines_ne_nil rest)
      | cons a as =>
        rw [hsp] at hl
        rcases List.mem_cons.mp hl with rfl | h
        · intro hmem
          rcases List.mem_cons.mp hmem with h1 | h1
          · exact hc h1.symm
          · exact ih a (hsp ▸ List.mem_cons_self a as) h1
        · exact ih l (hsp ▸ List.mem_cons_of_mem a h)

theorem splitLines_single {l : List Char} (h : '\n' ∉ l) : splitLines l = [l] := by
  induction l with
  | nil => rfl
  | cons c rest ih =>
    have hc : ¬ c = '\n' := fun he => h (he ▸ List.mem_cons_self c rest)
    rw [splitLines, if_neg hc, ih (fun hm => h (List.mem_cons_of_mem c hm))]

theorem splitLines_append_newline {l : List Char} (r : List Char) (h : '\n' ∉ l) :
    splitLines (l ++ '\n' :: r) = l :: splitLines r := by
  induction l with
  | nil => simp [splitLines]
  | cons c rest ih =>
    have hc : ¬ c = '\n' := fun he => h (he ▸ List.mem_cons_self c rest)
    rw [List.cons_append, splitLines, if_neg hc,
      ih (fun hm => h (List.mem_cons_of_mem c hm))]

theorem splitLines_joinLines : ∀ ls : List (List Char), ls ≠ [] →
    (∀ l ∈ ls, '\n' ∉ l) → splitLines (joinLines ls) = ls := by
  intro ls
  induction ls with
  | nil => intro h; exact absurd rfl h
  | cons l ls ih =>
    intro _ hnl
    cases ls with
    | nil => exact splitLines_single (hnl l (List.mem_cons_self l []))
    | cons l2 ls2 =>
      rw [joinLines, splitLines_append_newline _ (hnl l (List.mem_cons_self _ _)),
        ih (List.cons_ne_nil _ _) (fun x hx => hnl x (List.mem_cons_of_mem l hx))]
      exact fun h => List.noConfusion h

/-! ### Lemmas about `parseLine` -/

theorem expectChar_some {c : Char} {l r : List Char} (h : expectChar c l = some r) :
    l = c :: r := by
  cases l with
  | nil => exact absurd h (by simp [expectChar])
  | cons x rest =>
    rw [expectChar] at h
    split at h
    · next hx =>
      injection h with h
      rw [hx, h]
    · exact absurd h (by simp)

theorem parseLine_title_props {cs : List Char} {s e : Nat} {t : List Char}
    (h : parseLine cs = some (s, e, some t)) :
    t ≠ [] ∧ (∀ c, t.head? = some c → c.isWhitespace = false) ∧ t <:+ cs := by
  simp only [parseLine] at h
  split at h
  · exact absurd h (by simp)
  · cases hE : expectChar '-' ((cs.dropWhile Char.isDigit).dropWhile Char.isWhitespace) with
    | none => rw [hE] at h; exact absurd h (by simp)
    | some r3 =>
      rw [hE] at h
      simp only [Option.some_bind] at h
      split at h
      · exact absurd h (by simp)
      · split at h
        · simp at h
        · cases hE2 : expectChar ':'
            (((r3.dropWhile Char.isWhitespace).dropWhile Char.isDigit).dropWhile
              Char.isWhitespace) with
          | none => rw [hE2] at h; exact absurd h (by simp)
          | some r7 =>
            rw [hE2] at h
            simp only [Option.some_bind] at h
            split at h
            · exact absurd h (by simp)
            · next h8 =>
              simp only [Option.some.injEq, Prod.mk.injEq] at h
              obtain ⟨-, -, ht⟩ := h
              subst ht
              refine ⟨h8, fun c hc => head?_dropWhile hc, ?_⟩
              have s1 : r7.dropWhile Char.isWhitespace <:+ r7 :=
                List.dropWhile_suffix Char.isWhitespace
              have s2 : r7 <:+ ((r3.dropWhile Char.isWhitespace).dropWhile
                  Char.isDigit).dropWhile Char.isWhitespace :=
                ⟨[':'], (expectChar_some hE2).symm⟩
              have s3 : ((r3.dropWhile Char.isWhitespace).dropWhile
                  Char.isDigit).dropWhile Char.isWhitespace <:+
                  (r3.dropWhile Char.isWhitespace).dropWhile Char.isDigit :=
                List.dropWhile_suffix Char.isWhitespace
              have s4 : (r3.dropWhile Char.isWhitespace).dropWhile Char.isDigit <:+
                  r3.dropWhile Char.isWhitespace :=
                List.dropWhile_suffix Char.isDigit
              have s5 : r3.dropWhile Char.isWhitespace <:+ r3 :=
                List.dropWhile_suffix Char.isWhitespace
              have s6 : r3 <:+ (cs.dropWhile Char.isDigit).dropWhile Char.isWhitespace :=
                ⟨['-'], (expectChar_some hE).symm⟩
              have s7 : (cs.dropWhile Char.isDigit).dropWhile Char.isWhitespace <:+
                  cs.dropWhile Char.isDigit :=
                List.dropWhile_suffix Char.isWhitespace
              have s8 : cs.dropWhile Char.isDigit <:+ cs :=
                List.dropWhile_suffix Char.isDigit
              exact (((((((s1.trans s2).trans s3).trans s4).trans s5).trans s6).trans
                s7).trans s8)

theorem parseLine_serialized (s e : Nat) (t : List Char) (ht : t ≠ [])
    (hth : ∀ c, t.head? = some c → c.isWhitespace = false) :
    parseLine (natChars s ++ '-' :: (natChars e ++ ':' :: t)) = some (s, e, some t) := by
  obtain ⟨d, ds, hde⟩ : ∃ d ds, natChars e = d :: ds := by
    cases hne : natChars e with
    | nil => exact absurd hne (natChars_ne_nil e)
    | cons d ds => exact ⟨d, ds, rfl⟩
  have hd : d.isDigit = true := natChars_digits e d (hde ▸ List.mem_cons_self d ds)
  have hdigits2 : ∀ x ∈ d :: ds, x.isDigit = true :=
    fun x hx => natChars_digits e x (hde ▸ hx)
  simp only [parseLine]
  rw [takeWhile_append_cons _ (natChars_digits s) (by decide),
    dropWhile_append_cons _ (natChars_digits s) (by decide),
    if_neg (natChars_ne_nil s),
    List.dropWhile_cons, if_neg (by decide : ¬(Char.isWhitespace '-' = true)),
    show expectChar '-' ('-' :: (natChars e ++ ':' :: t)) =
      some (natChars e ++ ':' :: t) from by simp [expectChar]]
  simp only [Option.some_bind]
  rw [hde, List.cons_append, List.dropWhile_cons,
    if_neg (show ¬(d.isWhitespace = true) from by
      simp [isDigit_not_isWhitespace hd]), ← List.cons_append,
    takeWhile_append_cons _ hdigits2 (by decide),
    dropWhile_append_cons _ hdigits2 (by decide),
    if_neg (List.cons_ne_nil d ds), if_neg (List.cons_ne_nil ':' t),
    List.dropWhile_cons, if_neg (by decide : ¬(Char.isWhitespace ':' = true)),
    show expectChar ':' (':' :: t) = some t from by simp [expectChar]]
  simp only [Option.some_bind]
  rw [dropWhile_eq_self_of_head hth, if_neg ht, ← hde,
    digitsToNat_natChars, digitsToNat_natChars]

/-! ### Invariants of `parse_ranges` -/

/-- A stripped, non-blank, newline-free line: the shape of every
element of `nonBlankLines`. -/
def CleanLine (l : List Char) : Prop :=
  l ≠ [] ∧ (∀ c, l.head? = some c → c.isWhitespace = false) ∧
  (∀ c, l.getLast? = some c → c.isWhitespace = false) ∧ '\n' ∉ l

theorem nonBlankLines_clean {text l : List Char} (h : l ∈ nonBlankLines text) :
    CleanLine l := by
  rw [nonBlankLines, List.mem_filter] at h
  obtain ⟨hmem, hne⟩ := h
  rw [List.mem_map] at hmem
  obtain ⟨x, hx, rfl⟩ := hmem
  refine ⟨by simpa using hne, fun c hc => trimChars_head_not_ws hc,
    fun c hc => trimChars_getLast_not_ws hc, fun hmem2 => ?_⟩
  exact splitLines_no_newline _ x hx (trimChars_subset _ hmem2)

theorem trimChars_of_clean {l : List Char} (h : CleanLine l) : trimChars l = l :=
  trimChars_eq_self h.2.1 h.2.2.1

theorem mem_of_getLast?_eq : ∀ (l : List Char) {c : Char}, l.getLast? = some c → c ∈ l := by
  intro l
  induction l with
  | nil => intro c hc; simp at hc
  | cons a as ih =>
    intro c hc
    cases as with
    | nil =>
      simp only [List.getLast?_singleton, Option.some.injEq] at hc
      simp [hc]
    | cons b bs =>
      rw [List.getLast?_cons_cons] at hc
      exact List.mem_cons_of_mem a (ih hc)

theorem defaultTitle_clean (i : Nat) : CleanLine (defaultTitle i) := by
  have hp : "Part ".data = ['P', 'a', 'r', 't', ' '] := rfl
  refine ⟨by simp [defaultTitle, hp], ?_, ?_, ?_⟩
  · intro c hc
    rw [defaultTitle, hp] at hc
    simp only [List.cons_append, List.head?_cons, Option.some.injEq] at hc
    subst hc
    decide
  · intro c hc
    rw [defaultTitle, List.getLast?_append_of_ne_nil _ (natChars_ne_nil i)] at hc
    have : c ∈ natChars i := mem_of_getLast?_eq (natChars i) hc
    rw [isDigit_not_isWhitespace (natChars_digits i c this)]
  · intro hmem
    rw [defaultTitle, List.mem_append] at hmem
    rcases hmem with h1 | h1
    · rw [hp] at h1
      simp at h1
    · exact absurd (natChars_digits i _ h1) (by decide)

/-- Every chapter produced by a successful parse: clean title, positive
start, ordered range, end within the document. -/
def GoodChapter (total : Nat) (ch : MChapter) : Prop :=
  CleanLine ch.title ∧ 1 ≤ ch.start_page ∧ ch.start_page ≤ ch.end_page ∧
    ch.end_page ≤ total

theorem parseRangesAux_good {total : Nat} : ∀ (lines : List (List Char)) (i : Nat)
    (chs : List MChapter), (∀ l ∈ lines, CleanLine l) →
    parseRangesAux total i lines = .ok chs → ∀ ch ∈ chs, GoodChapter total ch := by
  intro lines
  induction lines with
  | nil =>
    intro i chs _ h ch hch
    rw [parseRangesAux] at h
    injection h with h
    subst h
    exact absurd hch (List.not_mem_nil ch)
  | cons line rest ih =>
    intro i chs hclean h ch hch
    rw [parseRangesAux] at h
    cases hp : parseLine line with
    | none => rw [hp] at h; exact absurd h (by simp)
    | some v =>
      obtain ⟨s, e, t⟩ := v
      rw [hp] at h
      split at h
      · exact absurd h (by simp)
      · next s2 e2 t2 h1 =>
        simp only [Option.some.injEq, Prod.mk.injEq] at h1
        obtain ⟨rfl, rfl, rfl⟩ := h1
        split at h
        · exact absurd h (by simp)
        · split at h
          · exact absurd h (by simp)
          · split at h
            · exact absurd h (by simp)
            · next hlt1 hlt2 hlt3 =>
              cases hr : parseRangesAux total (i + 1) rest with
              | error m => rw [hr] at h; exact absurd h (by simp)
              | ok chs2 =>
                rw [hr] at h
                injection h with h
                subst h
                rcases List.mem_cons.mp hch with rfl | hch2
                · refine ⟨?_, show 1 ≤ s by omega, show s ≤ e by omega,
                    show e ≤ total by omega⟩
                  cases t with
                  | none =>
                    simp only [Option.getD]
                    show CleanLine (trimChars (defaultTitle i))
                    rw [trimChars_of_clean (defaultTitle_clean i)]
                    exact defaultTitle_clean i
                  | some tt =>
                    simp only [Option.getD]
                    obtain ⟨htne, hth, htsuf⟩ :=
                      parseLine_title_props hp
                    have hlast : ∀ c, tt.getLast? = some c → c.isWhitespace = false := by
                      intro c hc
                      have hcl := hclean line (List.mem_cons_self _ _)
                      refine hcl.2.2.1 c ?_
                      rw [getLast?_of_suffix htsuf htne]
                      exact hc
                    have hclt : CleanLine tt :=
                      ⟨htne, hth, hlast, fun hm =>
                        (hclean line (List.mem_cons_self _ _)).2.2.2 (htsuf.subset hm)⟩
                    show CleanLine (trimChars tt)
                    rw [trimChars_of_clean hclt]
                    exact hclt
                · exact ih (i + 1) chs2
                    (fun l hl => hclean l (List.mem_cons_of_mem _ hl)) hr ch hch2

theorem parse_ranges_good {total : Nat} {text : List Char} {chs : List MChapter}
    (h : parse_ranges total text = .ok chs) : ∀ ch ∈ chs, GoodChapter total ch :=
  parseRangesAux_good (nonBlankLines text) 1 chs
    (fun _ hl => nonBlankLines_clean hl) h

/-! ### Round-trip of serialized chapter lists (claim C9) -/

theorem head?_append_left {l1 : List Char} (l2 : List Char) (h : l1 ≠ []) :
    (l1 ++ l2).head? = l1.head? := by
  cases l1 with
  | nil => exact absurd rfl h
  | cons a as => rfl

theorem joinLines_head? {l : List Char} (ls : List (List Char)) (hl : l ≠ []) :
    (joinLines (l :: ls)).head? = l.head? := by
  cases ls with
  | nil => rfl
  | cons l2 ls2 =>
    show (l ++ '\n' :: joinLines (l2 :: ls2)).head? = l.head?
    exact head?_append_left _ hl

theorem joinLines_ne_nil : ∀ ls : List (List Char), ls ≠ [] →
    (∀ l ∈ ls, l ≠ []) → joinLines ls ≠ [] := by
  intro ls hne hall
  cases ls with
  | nil => exact absurd rfl hne
  | cons l ls2 =>
    cases ls2 with
    | nil => exact hall l (List.mem_cons_self _ _)
    | cons l2 ls3 =>
      show l ++ '\n' :: joinLines (l2 :: ls3) ≠ []
      simp

theorem joinLines_getLast? : ∀ ls : List (List Char), ls ≠ [] →
    (∀ l ∈ ls, l ≠ []) → ∃ l ∈ ls, (joinLines ls).getLast? = l.getLast? := by
  intro ls
  induction ls with
  | nil => intro hne _; exact absurd rfl hne
  | cons l ls2 ih =>
    intro _ hall
    cases ls2 with
    | nil => exact ⟨l, List.mem_cons_self _ _, rfl⟩
    | cons l2 ls3 =>
      obtain ⟨l3, hmem, heq⟩ := ih (List.cons_ne_nil _ _)
        (fun x hx => hall x (List.mem_cons_of_mem l hx))
      refine ⟨l3, List.mem_cons_of_mem l hmem, ?_⟩
      show (l ++ '\n' :: joinLines (l2 :: ls3)).getLast? = l3.getLast?
      rw [List.getLast?_append_of_ne_nil _ (List.cons_ne_nil _ _),
        show ('\n' :: joinLines (l2 :: ls3)) = ['\n'] ++ joinLines (l2 :: ls3) from rfl,
        List.getLast?_append_of_ne_nil _
          (joinLines_ne_nil _ (List.cons_ne_nil _ _)
            (fun x hx => hall x (List.mem_cons_of_mem l hx)))]



      exact heq

theorem mem_of_head?_eq : ∀ (l : List Char) {c : Char}, l.head? = some c → c ∈ l := by
  intro l c hc
  cases l with
  | nil => simp at hc
  | cons a as =>
    rw [List.head?_cons, Option.some.injEq] at hc
    simp [hc]

theorem serializeChapter_suffix_title (ch : MChapter) :
    ch.title <:+ serializeChapter ch := by
  refine ⟨natChars ch.start_page ++ '-' :: natChars ch.end_page ++ [':'], ?_⟩
  simp [serializeChapter]

theorem serializeChapter_clean {total : Nat} {ch : MChapter}
    (h : GoodChapter total ch) : CleanLine (serializeChapter ch) := by
  obtain ⟨⟨htne, hth, htl, htnl⟩, -, -, -⟩ := h
  refine ⟨by simp [serializeChapter, natChars_ne_nil], ?_, ?_, ?_⟩
  · intro c hc
    have h2 : (natChars ch.start_page).head? = some c := by
      rw [serializeChapter,
        head?_append_left ('-' :: (natChars ch.end_page ++ ':' :: ch.title))
          (natChars_ne_nil ch.start_page)] at hc
      exact hc
    exact isDigit_not_isWhitespace
      (natChars_digits _ c (mem_of_head?_eq _ h2))
  · intro c hc
    rw [getLast?_of_suffix (serializeChapter_suffix_title ch) htne] at hc
    exact htl c hc
  · intro hmem
    rw [serializeChapter] at hmem
    rcases List.mem_append.mp hmem with h1 | h1
    · exact absurd (natChars_digits _ _ h1) (by decide)
    · rcases List.mem_cons.mp h1 with h2 | h2
      · exact absurd h2 (by decide)
      · rcases List.mem_append.mp h2 with h3 | h3
        · exact absurd (natChars_digits _ _ h3) (by decide)
        · rcases List.mem_cons.mp h3 with h4 | h4
          · exact absurd h4 (by decide)
          · exact htnl h4

theorem nonBlankLines_serialize {total : Nat} {chs : List MChapter}
    (hGood : ∀ ch ∈ chs, GoodChapter total ch) :
    nonBlankLines (serializeChapters chs) = chs.map serializeChapter := by
  cases chs with
  | nil => rfl
  | cons c0 rest =>
    have hmapne : (c0 :: rest).map serializeChapter ≠ [] := by simp
    have hclean : ∀ l ∈ (c0 :: rest).map serializeChapter, CleanLine l := by
      intro l hl
      rw [List.mem_map] at hl
      obtain ⟨ch, hch, rfl⟩ := hl
      exact serializeChapter_clean (hGood ch hch)
    have hallne : ∀ l ∈ (c0 :: rest).map serializeChapter, l ≠ [] :=
      fun l hl => (hclean l hl).1
    have hnonl : ∀ l ∈ (c0 :: rest).map serializeChapter, '\n' ∉ l :=
      fun l hl => (hclean l hl).2.2.2
    have htrim : trimChars (serializeChapters (c0 :: rest)) =
        serializeChapters (c0 :: rest) := by
      refine trimChars_eq_self ?_ ?_
      · intro c hc
        rw [serializeChapters, List.map_cons,
          joinLines_head? _ (hallne _ (by simp))] at hc
        exact (hclean _ (by simp)).2.1 c hc
      · intro c hc
        obtain ⟨l, hmem, heq⟩ := joinLines_getLast?
          ((c0 :: rest).map serializeChapter) hmapne hallne
        rw [serializeChapters, heq] at hc
        exact (hclean l hmem).2.2.1 c hc
    rw [nonBlankLines, htrim, serializeChapters,
      splitLines_joinLines _ hmapne hnonl,
      List.map_congr_left (fun l hl => trimChars_of_clean (hclean l hl)),
      List.map_id',
      List.filter_eq_self.mpr (fun a ha => by simp [hallne a ha])]

theorem parseRangesAux_serialized {total : Nat} : ∀ (chs : List MChapter) (i : Nat),
    (∀ ch ∈ chs, GoodChapter total ch) →
    parseRangesAux total i (chs.map serializeChapter) = .ok chs := by
  intro chs
  induction chs with
  | nil => intro i _; rfl
  | cons ch rest ih =>
    intro i hGood
    have hg := hGood ch (List.mem_cons_self _ _)
    obtain ⟨⟨htne, hth, htl, htnl⟩, hs1, hse, het⟩ := hg
    have hps : parseLine (serializeChapter ch) =
        some (ch.start_page, ch.end_page, some ch.title) :=
      parseLine_serialized ch.start_page ch.end_page ch.title htne hth
    rw [List.map_cons, parseRangesAux, hps]
    dsimp only
    rw [if_neg (by omega), if_neg (by omega), if_neg (by omega),
      ih (i + 1) (fun x hx => hGood x (List.mem_cons_of_mem ch hx))]
    dsimp only
    rw [Option.getD_some, trimChars_of_clean ⟨htne, hth, htl, htnl⟩]

/-- Claim C9: the parser is idempotent on valid input — serializing a
successfully parsed chapter list back to `start-end:title` lines and
re-parsing yields the identical chapter list. -/
theorem parse_ranges_roundtrip {total : Nat} {text : List Char} {chs : List MChapter}
    (h : parse_ranges total text = .ok chs) :
    parse_ranges total (serializeChapters chs) = .ok chs := by
  have hGood := parse_ranges_good h
  rw [parse_ranges, nonBlankLines_serialize hGood,
    parseRangesAux_serialized chs 1 hGood]

/-! ### First-failure behaviour of `parse_ranges` (claim C3) -/

theorem parseRangesAux_first_error {total : Nat} : ∀ (lines : List (List Char))
    (i j : Nat) (line msg : List Char),
    lines.get? j = some line →
    (∀ k l, k < j → lines.get? k = some l → lineCheck total (i + k) l = none) →
    lineCheck total (i + j) line = some msg →
    parseRangesAux total i lines = .error msg := by
  intro lines
  induction lines with
  | nil => intro i j line msg hget _ _; simp at hget
  | cons l0 rest ih =>
    intro i j line msg hget hearlier hchk
    cases j with
    | zero =>
      have hline : line = l0 := by
        rw [List.get?_cons_zero, Option.some.injEq] at hget
        exact hget.symm
      subst hline
      rw [Nat.add_zero] at hchk
      cases hp : parseLine line with
      | none =>
        rw [lineCheck, hp] at hchk
        dsimp only at hchk
        injection hchk with hchk
        rw [parseRangesAux, hp]
        dsimp only
        rw [hchk]
      | some v =>
        obtain ⟨s, e, t⟩ := v
        rw [lineCheck, hp] at hchk
        dsimp only at hchk
        rw [parseRangesAux, hp]
        dsimp only
        split_ifs at hchk with h1 h2 h3
        · injection hchk with hchk
          rw [if_pos h1, hchk]
        · injection hchk with hchk
          rw [if_neg h1, if_pos h2, hchk]
        · injection hchk with hchk
          rw [if_neg h1, if_neg h2, if_pos h3, hchk]
    | succ k =>
      rw [List.get?_cons_succ] at hget
      have h0 := hearlier 0 l0 (Nat.succ_pos k) rfl
      rw [Nat.add_zero] at h0
      cases hp : parseLine l0 with
      | none =>
        rw [lineCheck, hp] at h0
        dsimp only at h0
        exact absurd h0 (by simp)
      | some v =>
        obtain ⟨s, e, t⟩ := v
        rw [lineCheck, hp] at h0
        dsimp only at h0
        rw [parseRangesAux, hp]
        dsimp only
        split_ifs at h0 with h1 h2 h3
        rw [if_neg h1, if_neg h2, if_neg h3]
        have hIH : parseRangesAux total (i + 1) rest = .error msg := by
          refine ih (i + 1) k line msg hget ?_ ?_
          · intro k2 l hk2 hg2
            have := hearlier (k2 + 1) l (by omega) (by simpa using hg2)
            rwa [show i + (k2 + 1) = i + 1 + k2 by omega] at this
          · rwa [show i + (k + 1) = i + 1 + k by omega] at hchk
        rw [hIH]

/-! ### Plan characterization of `extract_chapters` (claim C8) -/

/-- The elements of a list paired with their position, starting at `i`. -/
def withIndices : Nat → List MChapter → List (Nat × MChapter)
  | _, [] => []
  | i, ch :: rest => (i, ch) :: withIndices (i + 1) rest

theorem extractPlanAux_filter_map {total : Nat} : ∀ (chs : List MChapter) (i : Nat),
    (∀ ch ∈ chs, 1 ≤ ch.start_page) →
    extractPlanAux total i chs =
      ((withIndices i chs).filter (fun p => p.2.start_page ≤ total)).map
        (fun p => ⟨outputFilename p.1 p.2.title, p.2.start_page - 1,
          min p.2.end_page total⟩) := by
  intro chs
  induction chs with
  | nil => intro i _; rfl
  | cons ch rest ih =>
    intro i hpos
    have h1 := hpos ch (List.mem_cons_self _ _)
    rw [extractPlanAux, withIndices, List.filter_cons]
    by_cases h : total ≤ ch.start_page - 1
    · rw [if_pos h, if_neg (by simp only [decide_eq_true_eq]; omega)]
      exact ih (i + 1) (fun x hx => hpos x (List.mem_cons_of_mem ch hx))
    · rw [if_neg h, if_pos (by simp only [decide_eq_true_eq]; omega), List.map_cons,
        ih (i + 1) (fun x hx => hpos x (List.mem_cons_of_mem ch hx))]

/-! ### Lemmas about `calculate_end_pages` -/

theorem calculate_end_pages_nil (total : Nat) (next : Option Nat) :
    calculate_end_pages [] total next = [] := by
  rw [calculate_end_pages.eq_def]

theorem specCalculateEndPages_nil (total : Nat) (next : Option Nat) :
    specCalculateEndPages [] total next = [] := by
  rw [specCalculateEndPages.eq_def]

theorem startsList_cons (t : List Char) (s : Nat) (cs rest : List Chapter) :
    startsList (Chapter.mk t s cs :: rest) = s :: (startsList cs ++ startsList rest) := by
  rw [startsList.eq_def]

theorem calculate_end_pages_ne_nil {chs : List Chapter} (total : Nat)
    (next : Option Nat) (h : chs ≠ []) :
    calculate_end_pages chs total next ≠ [] := by
  cases chs with
  | nil => exact absurd rfl h
  | cons c rest =>
    obtain ⟨t, s, cs⟩ := c
    rw [calculate_end_pages]
    simp

/-- Under the data-model invariant that start pages are positive (they
are `page_index + 1` in the source), the truthiness test
`if current_next_start:` of the Python code agrees with the
specification's known/unknown distinction, so the resolver equals the
specification's algorithm (recursive core of claim C1). -/
theorem calcEnd_eq_specAux : ∀ (chs : List Chapter) (total : Nat) (next : Option Nat),
    (∀ s ∈ startsList chs, 1 ≤ s) → (∀ k, next = some k → 1 ≤ k) →
    calculate_end_pages chs total next = specCalculateEndPages chs total next
  | [], total, next, _, _ => by
    rw [calculate_end_pages_nil, specCalculateEndPages_nil]
  | [Chapter.mk t s cs], total, next, hpos, hnext => by
    have hposcs : ∀ x ∈ startsList cs, 1 ≤ x := fun x hx => hpos x
      (by rw [startsList_cons]; exact List.mem_cons_of_mem _ (List.mem_append_left _ hx))
    cases next with
    | none =>
      rw [calculate_end_pages, specCalculateEndPages,
        calculate_end_pages_nil, specCalculateEndPages_nil]
      simp only [nextStartOf, resolveEnd, specResolveEnd]
      rw [calcEnd_eq_specAux cs total none hposcs (fun k hk => by simp at hk)]
    | some k =>
      have hk1 : 1 ≤ k := hnext k rfl
      rw [calculate_end_pages, specCalculateEndPages,
        calculate_end_pages_nil, specCalculateEndPages_nil]
      simp only [nextStartOf, resolveEnd, specResolveEnd]
      rw [if_neg (by omega : ¬ k = 0),
        calcEnd_eq_specAux cs _ (some k) hposcs
          (fun k2 hk2 => by injection hk2 with hk2; omega)]
  | Chapter.mk t s cs :: Chapter.mk t2 s2 cs2 :: rest2, total, next, hpos, hnext => by
    have hposcs : ∀ x ∈ startsList cs, 1 ≤ x := fun x hx => hpos x
      (by rw [startsList_cons]; exact List.mem_cons_of_mem _ (List.mem_append_left _ hx))
    have hposrest : ∀ x ∈ startsList (Chapter.mk t2 s2 cs2 :: rest2), 1 ≤ x :=
      fun x hx => hpos x
        (by rw [startsList_cons]; exact List.mem_cons_of_mem _ (List.mem_append_right _ hx))
    have hs2 : 1 ≤ s2 := hposrest s2
      (by rw [startsList_cons]; exact List.mem_cons_self _ _)
    rw [calculate_end_pages, specCalculateEndPages]
    simp only [nextStartOf, resolveEnd, specResolveEnd]
    rw [if_neg (by omega : ¬ s2 = 0),
      calcEnd_eq_specAux cs _ (some s2) hposcs
        (fun k2 hk2 => by injection hk2 with hk2; omega),
      calcEnd_eq_specAux (Chapter.mk t2 s2 cs2 :: rest2) total next hposrest hnext]
termination_by chs => sizeOf chs

/-- Claim C1: for every sibling list, total-pages context and optional
outer next start (positive start pages per the data model, positive
known next start), `calculate_end_pages` assigns end pages exactly as
the specification describes and recurses as it describes:
it equals `specCalculateEndPages`. -/
theorem calculate_end_pages_matches_spec (chs : List Chapter) (total : Nat)
    (next : Option Nat) (hpos : ∀ s ∈ startsList chs, 1 ≤ s)
    (hnext : ∀ k, next = some k → 1 ≤ k) :
    calculate_end_pages chs total next = specCalculateEndPages chs total next :=
  calcEnd_eq_specAux chs total next hpos hnext

/-- Claim C7, generalized for recursion: when all start pages are
positive, any known next start is positive, and (only needed on the
outermost spine, where the next start is unknown) all start pages are
within the total-pages context, every resolved node satisfies
`end_page ≥ start_page`. -/
theorem calcEnd_endsGe : ∀ (chs : List Chapter) (total : Nat) (next : Option Nat),
    (∀ s ∈ startsList chs, 1 ≤ s) →
    (∀ k, next = some k → 1 ≤ k) →
    (next = none → ∀ s ∈ startsList chs, s ≤ total) →
    endsGeStarts (calculate_end_pages chs total next) = true
  | [], total, next, _, _, _ => by
    rw [calculate_end_pages_nil, endsGeStarts]
  | [Chapter.mk t s cs], total, next, hpos, hnext, hbnd => by
    have hposcs : ∀ x ∈ startsList cs, 1 ≤ x := fun x hx => hpos x
      (by rw [startsList_cons]; exact List.mem_cons_of_mem _ (List.mem_append_left _ hx))
    cases next with
    | none =>
      have hst : s ≤ total := hbnd rfl s
        (by rw [startsList_cons]; exact List.mem_cons_self _ _)
      rw [calculate_end_pages, calculate_end_pages_nil]
      simp only [nextStartOf, resolveEnd]
      rw [endsGeStarts]
      simp only [Bool.and_eq_true, decide_eq_true_eq]
      refine ⟨⟨hst, ?_⟩, ?_⟩
      · exact calcEnd_endsGe cs total none hposcs (fun k hk => by simp at hk)
          (fun _ x hx => hbnd rfl x
            (by rw [startsList_cons]
                exact List.mem_cons_of_mem _ (List.mem_append_left _ hx)))
      · rw [endsGeStarts]
    | some k =>
      have hk1 : 1 ≤ k := hnext k rfl
      rw [calculate_end_pages, calculate_end_pages_nil]
      simp only [nextStartOf, resolveEnd]
      rw [if_neg (by omega : ¬ k = 0)]
      rw [endsGeStarts]
      simp only [Bool.and_eq_true, decide_eq_true_eq]
      refine ⟨⟨?_, ?_⟩, ?_⟩
      · split_ifs with h <;> omega
      · exact calcEnd_endsGe cs _ (some k) hposcs
          (fun k2 hk2 => by injection hk2 with hk2; omega)
          (fun h => by simp at h)
      · rw [endsGeStarts]
  | Chapter.mk t s cs :: Chapter.mk t2 s2 cs2 :: rest2, total, next, hpos, hnext, hbnd => by
    have hposcs : ∀ x ∈ startsList cs, 1 ≤ x := fun x hx => hpos x
      (by rw [startsList_cons]; exact List.mem_cons_of_mem _ (List.mem_append_left _ hx))
    have hposrest : ∀ x ∈ startsList (Chapter.mk t2 s2 cs2 :: rest2), 1 ≤ x :=
      fun x hx => hpos x
        (by rw [startsList_cons]
            exact List.mem_cons_of_mem _ (List.mem_append_right _ hx))
    have hs2 : 1 ≤ s2 := hposrest s2
      (by rw [startsList_cons]; exact List.mem_cons_self _ _)
    have hbndrest : next = none →
        ∀ x ∈ startsList (Chapter.mk t2 s2 cs2 :: rest2), x ≤ total :=
      fun hn x hx => hbnd hn x
        (by rw [startsList_cons]
            exact List.mem_cons_of_mem _ (List.mem_append_right _ hx))
    rw [calculate_end_pages]
    simp only [nextStartOf, resolveEnd]
    rw [if_neg (by omega : ¬ s2 = 0)]
    rw [endsGeStarts]
    simp only [Bool.and_eq_true, decide_eq_true_eq]
    refine ⟨⟨?_, ?_⟩, ?_⟩
    · split_ifs with h <;> omega
    · exact calcEnd_endsGe cs _ (some s2) hposcs
        (fun k2 hk2 => by injection hk2 with hk2; omega)
        (fun h => by simp at h)
    · exact calcEnd_endsGe (Chapter.mk t2 s2 cs2 :: rest2) total next hposrest hnext
        hbndrest
termination_by chs => sizeOf chs

theorem startsList_nil : startsList [] = [] := by
  rw [startsList.eq_def]

/-- The boundary value the last element of a sibling list resolves to:
for an unknown next start it is the total-pages context, for a known
one `k` it is `k - 1`. -/
def nextBound (total : Nat) : Option Nat → Nat
  | none => total
  | some k => k - 1

/-- Claim C6's invariant, generalized for recursion.  Under positive,
strictly increasing (in preorder) start pages bounded by the
total-pages context, with any known next start dominating every start
page of the list: the resolved forest satisfies `childEndsBounded`,
every top-level end page stays within the context, and the last
top-level element resolves exactly to the context boundary. -/
theorem calcEnd_bounded : ∀ (chs : List Chapter) (total : Nat) (next : Option Nat),
    (∀ s ∈ startsList chs, 1 ≤ s) →
    (∀ s ∈ startsList chs, s ≤ total) →
    List.Pairwise (· < ·) (startsList chs) →
    (∀ k, next = some k → (∀ s ∈ startsList chs, s < k) ∧ 1 ≤ k ∧ k ≤ total + 1) →
    childEndsBounded (calculate_end_pages chs total next) = true ∧
    (∀ r ∈ calculate_end_pages chs total next, r.end_page ≤ total) ∧
    (∀ r, (calculate_end_pages chs total next).getLast? = some r →
      r.end_page = nextBound total next)
  | [], total, next, _, _, _, _ => by
    rw [calculate_end_pages_nil]
    refine ⟨by rw [childEndsBounded], fun r hr => absurd hr (List.not_mem_nil r),
      fun r hr => by simp at hr⟩
  | [Chapter.mk t s cs], total, next, hpos, hbnd, hpair, hnext => by
    rw [startsList_cons, startsList_nil, List.append_nil] at hpos hbnd hpair hnext
    have hposcs : ∀ x ∈ startsList cs, 1 ≤ x :=
      fun x hx => hpos x (List.mem_cons_of_mem _ hx)
    have hlt := (List.pairwise_cons.mp hpair).1
    have hpwcs := (List.pairwise_cons.mp hpair).2
    cases next with
    | none =>
      have hst : s ≤ total := hbnd s (List.mem_cons_self _ _)
      have IH := calcEnd_bounded cs total none hposcs
        (fun x hx => hbnd x (List.mem_cons_of_mem _ hx)) hpwcs
        (fun k hk => by simp at hk)
      rw [calculate_end_pages, calculate_end_pages_nil]
      simp only [nextStartOf, resolveEnd]
      refine ⟨?_, ?_, ?_⟩
      · rw [childEndsBounded]
        simp only [Bool.and_eq_true, List.all_eq_true, decide_eq_true_eq]
        refine ⟨⟨⟨IH.1, fun c hc => IH.2.1 c hc⟩, ?_⟩, by rw [childEndsBounded]⟩
        rw [lastEndIs]
        cases hgl : (calculate_end_pages cs total none).getLast? with
        | none => rfl
        | some r => simp [IH.2.2 r hgl, nextBound]
      · intro r hr
        rcases List.mem_singleton.mp hr with rfl
        exact Nat.le_refl total
      · intro r hr
        rw [List.getLast?_singleton, Option.some.injEq] at hr
        subst hr
        rfl
    | some k =>
      obtain ⟨hallk, hk1, hk2⟩ := hnext k rfl
      have hsk : s < k := hallk s (List.mem_cons_self _ _)
      have IH := calcEnd_bounded cs (k - 1) (some k) hposcs
        (fun x hx => by
          have := hallk x (List.mem_cons_of_mem _ hx)
          omega) hpwcs
        (fun k2 hk2eq => by
          injection hk2eq with hk2eq
          subst hk2eq
          exact ⟨fun x hx => hallk x (List.mem_cons_of_mem _ hx), hk1, by omega⟩)
      rw [calculate_end_pages, calculate_end_pages_nil]
      simp only [nextStartOf, resolveEnd]
      rw [if_neg (by omega : ¬ k = 0), if_pos hsk]
      refine ⟨?_, ?_, ?_⟩
      · rw [childEndsBounded]
        simp only [Bool.and_eq_true, List.all_eq_true, decide_eq_true_eq]
        refine ⟨⟨⟨IH.1, fun c hc => IH.2.1 c hc⟩, ?_⟩, by rw [childEndsBounded]⟩
        rw [lastEndIs]
        cases hgl : (calculate_end_pages cs (k - 1) (some k)).getLast? with
        | none => rfl
        | some r => simp [IH.2.2 r hgl, nextBound]
      · intro r hr
        rcases List.mem_singleton.mp hr with rfl
        show k - 1 ≤ total
        omega
      · intro r hr
        rw [List.getLast?_singleton, Option.some.injEq] at hr
        subst hr
        rfl
  | Chapter.mk t s cs :: Chapter.mk t2 s2 cs2 :: rest2, total, next,
      hpos, hbnd, hpair, hnext => by
    rw [startsList_cons] at hpos hbnd hpair hnext
    have hposcs : ∀ x ∈ startsList cs, 1 ≤ x :=
      fun x hx => hpos x (List.mem_cons_of_mem _ (List.mem_append_left _ hx))
    have hposrest : ∀ x ∈ startsList (Chapter.mk t2 s2 cs2 :: rest2), 1 ≤ x :=
      fun x hx => hpos x (List.mem_cons_of_mem _ (List.mem_append_right _ hx))
    have hbndcs : ∀ x ∈ startsList cs, x ≤ total :=
      fun x hx => hbnd x (List.mem_cons_of_mem _ (List.mem_append_left _ hx))
    have hbndrest : ∀ x ∈ startsList (Chapter.mk t2 s2 cs2 :: rest2), x ≤ total :=
      fun x hx => hbnd x (List.mem_cons_of_mem _ (List.mem_append_right _ hx))
    have hlt := (List.pairwise_cons.mp hpair).1
    obtain ⟨hpwcs, hpwrest, hcross⟩ :=
      List.pairwise_append.mp (List.pairwise_cons.mp hpair).2
    have hs2mem : s2 ∈ startsList (Chapter.mk t2 s2 cs2 :: rest2) := by
      rw [startsList_cons]
      exact List.mem_cons_self _ _
    have hs2 : 1 ≤ s2 := hposrest s2 hs2mem
    have hs2t : s2 ≤ total := hbndrest s2 hs2mem
    have hss2 : s < s2 := hlt s2 (List.mem_append_right _ hs2mem)
    have IHc := calcEnd_bounded cs (s2 - 1) (some s2) hposcs
      (fun x hx => by have := hcross x hx s2 hs2mem; omega) hpwcs
      (fun k2 hk2eq => by
        injection hk2eq with hk2eq
        subst hk2eq
        exact ⟨fun x hx => hcross x hx s2 hs2mem, hs2, by omega⟩)
    have IHr := calcEnd_bounded (Chapter.mk t2 s2 cs2 :: rest2) total next
      hposrest hbndrest hpwrest
      (fun k hk => ⟨fun x hx => ((hnext k hk).1 x)
        (List.mem_cons_of_mem _ (List.mem_append_right _ hx)),
        (hnext k hk).2.1, (hnext k hk).2.2⟩)
    have hTne : calculate_end_pages (Chapter.mk t2 s2 cs2 :: rest2) total next ≠ [] :=
      calculate_end_pages_ne_nil total next (List.cons_ne_nil _ _)
    rw [calculate_end_pages]
    simp only [nextStartOf, resolveEnd]
    rw [if_neg (by omega : ¬ s2 = 0), if_pos hss2]
    refine ⟨?_, ?_, ?_⟩
    · rw [childEndsBounded]
      simp only [Bool.and_eq_true, List.all_eq_true, decide_eq_true_eq]
      refine ⟨⟨⟨IHc.1, fun c hc => IHc.2.1 c hc⟩, ?_⟩, IHr.1⟩
      rw [lastEndIs]
      cases hgl : (calculate_end_pages cs (s2 - 1) (some s2)).getLast? with
      | none => rfl
      | some r => simp [IHc.2.2 r hgl, nextBound]
    · intro r hr
      rcases List.mem_cons.mp hr with rfl | hr2
      · show s2 - 1 ≤ total
        omega
      · exact IHr.2.1 r hr2
    · intro r hr
      rw [show (RChapter.mk t s (s2 - 1)
            (calculate_end_pages cs (s2 - 1) (some s2)) ::
            calculate_end_pages (Chapter.mk t2 s2 cs2 :: rest2) total next) =
          [RChapter.mk t s (s2 - 1) (calculate_end_pages cs (s2 - 1) (some s2))] ++
            calculate_end_pages (Chapter.mk t2 s2 cs2 :: rest2) total next from rfl,
        List.getLast?_append_of_ne_nil _ hTne] at hr
      exact IHr.2.2 r hr
termination_by chs => sizeOf chs

/-! ### Claim theorems -/

/-- Claim C2: per visited node of the selection collector, an unchecked
node contributes nothing (and its descendants are never visited), a
checked collapsed node contributes exactly its own
`(title, start_page, end_page)` triple, and a checked expanded node
contributes exactly its children's contribution (possibly nothing), in
document order. -/
theorem collect_chapters_cases (n : UNode) (rest : List UNode) :
    (n.checked = false → collect_chapters (n :: rest) = collect_chapters rest) ∧
    (n.checked = true → n.expanded = false →
      collect_chapters (n :: rest) =
        (n.title, n.start_page, n.end_page) :: collect_chapters rest) ∧
    (n.checked = true → n.expanded = true →
      collect_chapters (n :: rest) =
        collect_chapters n.children ++ collect_chapters rest) := by
  obtain ⟨t, s, e, chk, exp, cs⟩ := n
  simp only [UNode.checked, UNode.expanded, UNode.title, UNode.start_page,
    UNode.end_page, UNode.children]
  refine ⟨fun h1 => ?_, fun h1 h2 => ?_, fun h1 h2 => ?_⟩
  · subst h1
    rw [collect_chapters]
    simp
  · subst h1
    subst h2
    rw [collect_chapters]
    simp
  · subst h1
    subst h2
    rw [collect_chapters]
    simp only [Bool.not_true, Bool.false_eq_true, if_false]
    by_cases hcc : collect_chapters cs = [] <;> simp [hcc]

/-- Witness for C2 at concrete nodes: an unchecked node with a checked
child contributes nothing, a checked collapsed node contributes its own
triple, a checked expanded node contributes its children's triples. -/
theorem collect_chapters_cases_witness :
    collect_chapters [UNode.mk "a".data 1 10 false false []] =
      collect_chapters [] ∧
    collect_chapters [UNode.mk "b".data 1 10 true false []] =
      ("b".data, 1, 10) :: collect_chapters [] ∧
    collect_chapters
        [UNode.mk "c".data 1 10 true true [UNode.mk "d".data 1 5 true false []]] =
      collect_chapters [UNode.mk "d".data 1 5 true false []] ++ collect_chapters [] :=
  ⟨(collect_chapters_cases _ _).1 rfl,
   (collect_chapters_cases _ _).2.1 rfl rfl,
   (collect_chapters_cases _ _).2.2 rfl rfl⟩

/-- Counterexample to claim C4 as stated: two distinct ranges (same
title, different pages) are written to the same output filename
`X.pdf`; the extractor does nothing to disambiguate. -/
theorem extract_chapters_filename_collision :
    extract_chapters 10 [⟨"X".data, 1, 1⟩, ⟨"X".data, 2, 2⟩] =
      [⟨"X.pdf".data, 0, 1⟩, ⟨"X.pdf".data, 1, 2⟩] ∧
    (⟨"X".data, 1, 1⟩ : MChapter) ≠ ⟨"X".data, 2, 2⟩ := by
  exact ⟨rfl, by decide⟩

/-- Claim C4 amended: filenames are collision-safe only across ranges
whose sanitized titles are non-empty and distinct; such ranges always
receive distinct output filenames. -/
theorem outputFilename_injective_on_titles (i j : Nat) (t1 t2 : List Char)
    (h1 : safeTitle t1 ≠ []) (h2 : safeTitle t2 ≠ [])
    (h3 : safeTitle t1 ≠ safeTitle t2) :
    outputFilename i t1 ≠ outputFilename j t2 := by
  intro heq
  simp only [outputFilename] at heq
  rw [if_neg h1, if_neg h2] at heq
  exact h3 (List.append_cancel_right heq)

/-- Witness for the amended C4 at concrete titles. -/
theorem outputFilename_injective_witness :
    safeTitle "A".data ≠ [] ∧ safeTitle "B".data ≠ [] ∧
    safeTitle "A".data ≠ safeTitle "B".data ∧
    outputFilename 0 "A".data ≠ outputFilename 1 "B".data :=
  ⟨by decide, by decide, by decide,
   outputFilename_injective_on_titles 0 1 _ _ (by decide) (by decide) (by decide)⟩

/-- Counterexample to claim C5 as stated: with an existing, readable
document whose outline is empty, manual mode not forced, and the manual
session yielding no chapters, the claim predicts exit code 1, but
`main` prints `No chapters selected.` and exits 0. -/
theorem mainExit_empty_outline_yields_zero :
    mainExit ⟨true, false, some (10, []), [], [], true⟩ = 0 := rfl

/-- Claim C5 amended: the exit code is always 0 or 1; it is 1 exactly
for a missing file, a failed document read, or a failed extraction of a
non-empty selection — an empty selection (user cancellation, or manual
fallback yielding nothing) always exits 0. -/
theorem mainExit_characterization (env : Env) :
    (mainExit env = 0 ∨ mainExit env = 1) ∧
    (mainExit env = 1 ↔ (env.fileExists = false ∨ env.readOutcome = none ∨
      ∃ total outline, env.readOutcome = some (total, outline) ∧
        selectedChapters env outline ≠ [] ∧ env.extractOk = false)) := by
  obtain ⟨fe, mf, ro, ms, ts, eo⟩ := env
  cases fe with
  | false => exact ⟨Or.inr rfl, ⟨fun _ => Or.inl rfl, fun _ => rfl⟩⟩
  | true =>
    cases ro with
    | none =>
      refine ⟨Or.inr rfl, ⟨fun _ => Or.inr (Or.inl rfl), fun _ => rfl⟩⟩
    | some p =>
      obtain ⟨total, outline⟩ := p
      have hm : mainExit ⟨true, mf, some (total, outline), ms, ts, eo⟩ =
          (if (selectedChapters ⟨true, mf, some (total, outline), ms, ts, eo⟩
              outline).isEmpty
           then 0 else if eo then 0 else 1) := rfl
      by_cases hsel :
          (selectedChapters ⟨true, mf, some (total, outline), ms, ts, eo⟩
            outline).isEmpty
      · rw [hm, if_pos hsel]
        refine ⟨Or.inl rfl, ⟨fun h => absurd h (by omega), ?_⟩⟩
        rintro (hf | hr | ⟨t2, o2, heq, hne2, -⟩)
        · exact Bool.noConfusion hf
        · exact Option.noConfusion hr
        · injection heq with heq
          injection heq with h1 h2
          subst h1
          subst h2
          rw [List.isEmpty_iff] at hsel
          exact absurd hsel hne2
      · have hne : selectedChapters ⟨true, mf, some (total, outline), ms, ts, eo⟩
            outline ≠ [] := by
          intro he
          apply hsel
          rw [he]
          rfl
        cases eo with
        | true =>
          rw [hm, if_neg hsel, if_pos rfl]
          refine ⟨Or.inl rfl, ⟨fun h => absurd h (by omega), ?_⟩⟩
          rintro (hf | hr | ⟨t2, o2, heq, hne2, hfalse⟩)
          · exact Bool.noConfusion hf
          · exact Option.noConfusion hr
          · exact Bool.noConfusion hfalse
        | false =>
          rw [hm, if_neg hsel, if_neg (by simp)]
          exact ⟨Or.inr rfl,
            ⟨fun _ => Or.inr (Or.inr ⟨total, outline, rfl, hne, rfl⟩),
             fun _ => rfl⟩⟩

/-- Claim C10: the parser operates on the filtered list of non-blank
stripped lines, so any two texts with the same non-blank lines parse
identically (error line numbers and `Part {i}` default titles count
non-blank lines only); concretely, blank lines shift neither the
reported line number nor the default titles. -/
theorem parse_ranges_blank_lines :
    (∀ (total : Nat) (t1 t2 : List Char), nonBlankLines t1 = nonBlankLines t2 →
      parse_ranges total t1 = parse_ranges total t2) ∧
    parse_ranges 30 "1-10\n\n\n11-bad".data =
      .error (msgInvalidFormat 2 "11-bad".data) ∧
    parse_ranges 30 "1-5\n\n6-9".data =
      .ok [⟨"Part 1".data, 1, 5⟩, ⟨"Part 2".data, 6, 9⟩] := by
  refine ⟨fun total t1 t2 h => ?_, rfl, rfl⟩
  rw [parse_ranges, parse_ranges, h]

/-- Witness for C10: inserting a blank line between two ranges does not
change the parse result. -/
theorem parse_ranges_blank_lines_witness :
    parse_ranges 30 "1-10\n\n11-20".data = parse_ranges 30 "1-10\n11-20".data :=
  parse_ranges_blank_lines.1 30 _ _ (by decide)

/-- Witness for C1 (spec scenario: node at page 5 with children at 6
and 9, next sibling at 13, 30 pages): the resolver agrees with the
specification's algorithm. -/
theorem calculate_end_pages_matches_spec_witness :
    (∀ s ∈ startsList [Chapter.mk "p".data 5 [Chapter.mk "c1".data 6 [],
        Chapter.mk "c2".data 9 []], Chapter.mk "q".data 13 []], 1 ≤ s) ∧
    calculate_end_pages [Chapter.mk "p".data 5 [Chapter.mk "c1".data 6 [],
        Chapter.mk "c2".data 9 []], Chapter.mk "q".data 13 []] 30 none =
      specCalculateEndPages [Chapter.mk "p".data 5 [Chapter.mk "c1".data 6 [],
        Chapter.mk "c2".data 9 []], Chapter.mk "q".data 13 []] 30 none := by
  have h1 : ∀ s ∈ startsList [Chapter.mk "p".data 5 [Chapter.mk "c1".data 6 [],
      Chapter.mk "c2".data 9 []], Chapter.mk "q".data 13 []], 1 ≤ s := by
    rw [show startsList [Chapter.mk "p".data 5 [Chapter.mk "c1".data 6 [],
        Chapter.mk "c2".data 9 []], Chapter.mk "q".data 13 []] = [5, 6, 9, 13] by
      simp [startsList_cons, startsList_nil]]
    decide
  exact ⟨h1, calculate_end_pages_matches_spec _ 30 none h1 (fun k hk => by simp at hk)⟩

/-- Claim C3: the range parser validates the non-blank lines in order
(grammar, then `start < 1`, then `end > total_pages`, then
`start > end`, as fixed in `lineCheck`); the first failing line aborts
the whole batch with that line's message and no chapter list
(`Except.error` carries no chapters).  In particular the two scenarios
from the specification: `1-10, 11-bad, 21-30` on 30 pages gives the
line-2 format error, and `5-3` gives the line-1 ordering error. -/
theorem parse_ranges_all_or_nothing :
    (∀ (total : Nat) (text : List Char) (j : Nat) (line msg : List Char),
      (nonBlankLines text).get? j = some line →
      (∀ k l, k < j → (nonBlankLines text).get? k = some l →
        lineCheck total (1 + k) l = none) →
      lineCheck total (1 + j) line = some msg →
      parse_ranges total text = .error msg) ∧
    parse_ranges 30 "1-10\n11-bad\n21-30".data =
      .error (msgInvalidFormat 2 "11-bad".data) ∧
    (∀ total, 3 ≤ total →
      parse_ranges total "5-3".data = .error (msgOrder 1 5 3)) := by
  refine ⟨?_, rfl, ?_⟩
  · intro total text j line msg hg he hc
    exact parseRangesAux_first_error (nonBlankLines text) 1 j line msg hg he hc
  · intro total htot
    show parseRangesAux total 1 (nonBlankLines ("5-3".data)) = _
    rw [show nonBlankLines ("5-3".data) = [['5', '-', '3']] from rfl,
      parseRangesAux,
      show parseLine ['5', '-', '3'] = some (5, 3, none) from rfl]
    dsimp only
    rw [if_neg (by omega : ¬ (5 : Nat) < 1), if_neg (by omega : ¬ total < 3),
      if_pos (by omega : (3 : Nat) < 5)]

/-- Witness for C3: the general first-failure property instantiated at
the two scenario inputs. -/
theorem parse_ranges_all_or_nothing_witness :
    parse_ranges 30 "1-10\n11-bad\n21-30".data =
      .error (msgInvalidFormat 2 "11-bad".data) ∧
    parse_ranges 30 "5-3".data = .error (msgOrder 1 5 3) := by
  constructor
  · refine parse_ranges_all_or_nothing.1 30 _ 1 ("11-bad".data) _ rfl ?_ rfl
    intro k l hk hget
    have hk0 : k = 0 := by omega
    subst hk0
    have hl : l = "1-10".data := by
      have hg : (nonBlankLines ("1-10\n11-bad\n21-30".data)).get? 0 =
          some ("1-10".data) := rfl
      rw [hg, Option.some.injEq] at hget
      exact hget.symm
    subst hl
    rfl
  · exact parse_ranges_all_or_nothing.2.2 30 (by omega)

/-- Counterexample to claim C6 as stated: in the resolved tree below
(duplicate sibling start pages, a child starting past its parent's
end), child `B` resolves to end page 11 while its parent `A` resolves
to end page 10, so a child's end page exceeds its parent's. -/
theorem calculate_end_pages_child_exceeds_parent :
    calculate_end_pages
        [Chapter.mk "A".data 10 [Chapter.mk "B".data 11 []],
         Chapter.mk "C".data 10 []] 30 none =
      [RChapter.mk "A".data 10 10 [RChapter.mk "B".data 11 11 []],
       RChapter.mk "C".data 10 30 []] ∧
    childEndsBounded (calculate_end_pages
        [Chapter.mk "A".data 10 [Chapter.mk "B".data 11 []],
         Chapter.mk "C".data 10 []] 30 none) = false := by
  have h : calculate_end_pages
      [Chapter.mk "A".data 10 [Chapter.mk "B".data 11 []],
       Chapter.mk "C".data 10 []] 30 none =
      [RChapter.mk "A".data 10 10 [RChapter.mk "B".data 11 11 []],
       RChapter.mk "C".data 10 30 []] := by
    simp [calculate_end_pages, calculate_end_pages_nil, nextStartOf, resolveEnd]
  refine ⟨h, ?_⟩
  rw [h]
  simp [childEndsBounded, lastEndIs, RChapter.end_page]

/-- Claim C6 amended: in every tree resolved by `calculate_end_pages`
from the outermost call whose start pages are positive, at most the
total page count, and strictly increasing in document (preorder) order,
each child's `end_page` is at most its parent's `end_page` and the last
child's `end_page` equals its parent's `end_page`. -/
theorem calcEnd_childEndsBounded (chs : List Chapter) (total : Nat)
    (hpos : ∀ s ∈ startsList chs, 1 ≤ s)
    (hbnd : ∀ s ∈ startsList chs, s ≤ total)
    (hsorted : List.Pairwise (· < ·) (startsList chs)) :
    childEndsBounded (calculate_end_pages chs total none) = true :=
  (calcEnd_bounded chs total none hpos hbnd hsorted (fun k hk => by simp at hk)).1

/-- Witness for the amended C6 at the specification's scenario tree. -/
theorem calcEnd_childEndsBounded_witness :
    (∀ s ∈ startsList [Chapter.mk "p".data 5 [Chapter.mk "c1".data 6 [],
        Chapter.mk "c2".data 9 []], Chapter.mk "q".data 13 []], 1 ≤ s) ∧
    (∀ s ∈ startsList [Chapter.mk "p".data 5 [Chapter.mk "c1".data 6 [],
        Chapter.mk "c2".data 9 []], Chapter.mk "q".data 13 []], s ≤ 30) ∧
    List.Pairwise (· < ·) (startsList [Chapter.mk "p".data 5
        [Chapter.mk "c1".data 6 [], Chapter.mk "c2".data 9 []],
        Chapter.mk "q".data 13 []]) ∧
    childEndsBounded (calculate_end_pages [Chapter.mk "p".data 5
        [Chapter.mk "c1".data 6 [], Chapter.mk "c2".data 9 []],
        Chapter.mk "q".data 13 []] 30 none) = true := by
  have hs : startsList [Chapter.mk "p".data 5 [Chapter.mk "c1".data 6 [],
      Chapter.mk "c2".data 9 []], Chapter.mk "q".data 13 []] = [5, 6, 9, 13] := by
    simp [startsList_cons, startsList_nil]
  have h1 : ∀ s ∈ startsList [Chapter.mk "p".data 5 [Chapter.mk "c1".data 6 [],
      Chapter.mk "c2".data 9 []], Chapter.mk "q".data 13 []], 1 ≤ s := by
    rw [hs]; decide
  have h2 : ∀ s ∈ startsList [Chapter.mk "p".data 5 [Chapter.mk "c1".data 6 [],
      Chapter.mk "c2".data 9 []], Chapter.mk "q".data 13 []], s ≤ 30 := by
    rw [hs]; decide
  have h3 : List.Pairwise (· < ·) (startsList [Chapter.mk "p".data 5
      [Chapter.mk "c1".data 6 [], Chapter.mk "c2".data 9 []],
      Chapter.mk "q".data 13 []]) := by
    rw [hs]; decide
  exact ⟨h1, h2, h3, calcEnd_childEndsBounded _ 30 h1 h2 h3⟩

/-- Claim C7: after `calculate_end_pages` completes from the outermost
call, every node satisfies `end_page ≥ start_page`, under the
precondition that every node's `start_page` lies between 1 and the
total page count supplied at the outermost call. -/
theorem calculate_end_pages_end_ge_start (chs : List Chapter) (total : Nat)
    (h : ∀ s ∈ startsList chs, 1 ≤ s ∧ s ≤ total) :
    endsGeStarts (calculate_end_pages chs total none) = true :=
  calcEnd_endsGe chs total none (fun s hs => (h s hs).1)
    (fun k hk => by simp at hk) (fun _ s hs => (h s hs).2)

/-- Witness for C7, on a degenerate tree (duplicate sibling starts, a
child past its parent's end) where the precondition still holds. -/
theorem calculate_end_pages_end_ge_start_witness :
    (∀ s ∈ startsList [Chapter.mk "A".data 10 [Chapter.mk "B".data 11 []],
        Chapter.mk "C".data 10 []], 1 ≤ s ∧ s ≤ 30) ∧
    endsGeStarts (calculate_end_pages
        [Chapter.mk "A".data 10 [Chapter.mk "B".data 11 []],
         Chapter.mk "C".data 10 []] 30 none) = true := by
  have h : ∀ s ∈ startsList [Chapter.mk "A".data 10 [Chapter.mk "B".data 11 []],
      Chapter.mk "C".data 10 []], 1 ≤ s ∧ s ≤ 30 := by
    rw [show startsList [Chapter.mk "A".data 10 [Chapter.mk "B".data 11 []],
        Chapter.mk "C".data 10 []] = [10, 11, 10] by
      simp [startsList_cons, startsList_nil]]
    decide
  exact ⟨h, calculate_end_pages_end_ge_start _ 30 h⟩

/-- Claim C8: for chapter lists with positive start pages (the data
model guarantees `start_page ≥ 1`), the extraction plan is exactly the
enumerate-filter-map: chapters whose start exceeds the page count are
skipped while the rest continue, and each survivor is written from the
0-based half-open interval `[start_page - 1, min(end_page, total))`
with its end silently clamped. -/
theorem extract_chapters_plan (total : Nat) (chs : List MChapter)
    (hpos : ∀ ch ∈ chs, 1 ≤ ch.start_page) :
    extract_chapters total chs =
      ((withIndices 0 chs).filter (fun p => p.2.start_page ≤ total)).map
        (fun p => ⟨outputFilename p.1 p.2.title, p.2.start_page - 1,
          min p.2.end_page total⟩) :=
  extractPlanAux_filter_map chs 0 hpos

/-- Witness for C8: a chapter starting past the page count is dropped,
the remaining two are clamped and kept in order. -/
theorem extract_chapters_plan_witness :
    (∀ ch ∈ [(⟨"A".data, 1, 5⟩ : MChapter), ⟨"B".data, 20, 25⟩,
      ⟨"C".data, 3, 99⟩], 1 ≤ ch.start_page) ∧
    extract_chapters 10 [⟨"A".data, 1, 5⟩, ⟨"B".data, 20, 25⟩, ⟨"C".data, 3, 99⟩] =
      ((withIndices 0 [⟨"A".data, 1, 5⟩, ⟨"B".data, 20, 25⟩,
          ⟨"C".data, 3, 99⟩]).filter (fun p => p.2.start_page ≤ 10)).map
        (fun p => ⟨outputFilename p.1 p.2.title, p.2.start_page - 1,
          min p.2.end_page 10⟩) :=
  ⟨by decide, extract_chapters_plan 10 _ (by decide)⟩

/-- Witness for C9: a parse followed by serialization re-parses to the
identical chapter list. -/
theorem parse_ranges_roundtrip_witness :
    parse_ranges 30 ("1-10\n11-20:Intro".data) =
      .ok [⟨"Part 1".data, 1, 10⟩, ⟨"Intro".data, 11, 20⟩] ∧
    parse_ranges 30 (serializeChapters
        [⟨"Part 1".data, 1, 10⟩, ⟨"Intro".data, 11, 20⟩]) =
      .ok [⟨"Part 1".data, 1, 10⟩, ⟨"Intro".data, 11, 20⟩] :=
  ⟨rfl, @parse_ranges_roundtrip 30 ("1-10\n11-20:Intro".data) _ rfl⟩

end PdfCutter
